import Mathlib

/-!
Verification of the IRTK cardiac-branch registration utilities
(`packages/cardiacbranch/registration/src/irtkUtil.cc` and
`packages/cardiacbranch/registration/include/irtkDemonsRegistration.h`).

Shallow embedding: grey images (`irtkGreyImage`, pixel type `short`) are
modelled as dimension data together with an intensity function into `Int`;
`double` arithmetic used only for comparisons and exact small-integer
division is modelled over `ℚ` / exact integer arithmetic (the source only
ever divides machine integers whose quotients round exactly, see the
comments at `irtkCalculateNumberOfBins`).
-/

namespace IRTK

/-- Sentinel minimum grey value. `irtkGreyPixel` is `short`; `MIN_GREY`
is the minimum representable grey value (SHRT_MIN).  Its definition lives
outside this repository's sources; the exact value is irrelevant to the
theorems below, which treat it as the sentinel the code returns. -/
def MIN_GREY : Int := -32768

/-- A 3D grey image: dimensions `X`, `Y`, `Z` and an intensity lookup
`data x y z`, modelling `irtkGreyImage` restricted to the accessors
`GetX/GetY/GetZ` and `operator()(i,j,k)` that `GuessPadding` uses. -/
structure GreyImage3 where
  X : Nat
  Y : Nat
  Z : Nat
  data : Nat → Nat → Nat → Int

/-- Embedding of `GuessPadding` (irtkUtil.cc:116-133): compare the corner
voxel `(0,0,0)` with the other seven corners; if any differs the `padding`
flag is cleared and the sentinel `MIN_GREY` is returned, otherwise the
corner intensity is returned. -/
def GuessPadding (image : GreyImage3) : Int :=
  let padding1 := true
  let padding2 := if image.data 0 0 0 ≠ image.data (image.X - 1) 0 0 then false else padding1
  let padding3 := if image.data 0 0 0 ≠ image.data 0 (image.Y - 1) 0 then false else padding2
  let padding4 := if image.data 0 0 0 ≠ image.data 0 0 (image.Z - 1) then false else padding3
  let padding5 := if image.data 0 0 0 ≠ image.data (image.X - 1) (image.Y - 1) 0 then false else padding4
  let padding6 := if image.data 0 0 0 ≠ image.data 0 (image.Y - 1) (image.Z - 1) then false else padding5
  let padding7 := if image.data 0 0 0 ≠ image.data (image.X - 1) 0 (image.Z - 1) then false else padding6
  let padding8 := if image.data 0 0 0 ≠ image.data (image.X - 1) (image.Y - 1) (image.Z - 1) then false else padding7
  if padding8 = false then MIN_GREY else image.data 0 0 0

/-- All eight corner voxels of the volume have equal intensity. -/
def AllCornersEqual (image : GreyImage3) : Prop :=
  image.data 0 0 0 = image.data (image.X - 1) 0 0 ∧
  image.data 0 0 0 = image.data 0 (image.Y - 1) 0 ∧
  image.data 0 0 0 = image.data 0 0 (image.Z - 1) ∧
  image.data 0 0 0 = image.data (image.X - 1) (image.Y - 1) 0 ∧
  image.data 0 0 0 = image.data 0 (image.Y - 1) (image.Z - 1) ∧
  image.data 0 0 0 = image.data (image.X - 1) 0 (image.Z - 1) ∧
  image.data 0 0 0 = image.data (image.X - 1) (image.Y - 1) (image.Z - 1)

instance (image : GreyImage3) : Decidable (AllCornersEqual image) := by
  unfold AllCornersEqual; infer_instance

/-- Embedding of the three-argument `GuessResolution` (irtkUtil.cc:103-108). -/
def GuessResolution3 (xsize ysize zsize : ℚ) : ℚ :=
  if xsize ≥ ysize ∧ xsize ≥ zsize then xsize
  else if ysize ≥ xsize ∧ ysize ≥ zsize then ysize
  else zsize

/-- Embedding of the two-argument `GuessResolution` (irtkUtil.cc:110-114). -/
def GuessResolution2 (xsize ysize : ℚ) : ℚ :=
  if xsize > ysize then xsize else ysize

/-- C1: for every 3D grey image with positive dimensions, `GuessPadding`
returns the intensity of corner voxel `(0,0,0)` when all eight corner
voxels have equal intensity, and the sentinel `MIN_GREY` otherwise. -/
theorem guessPadding_spec (image : GreyImage3)
    (hX : 0 < image.X) (hY : 0 < image.Y) (hZ : 0 < image.Z) :
    (AllCornersEqual image → GuessPadding image = image.data 0 0 0) ∧
    (¬ AllCornersEqual image → GuessPadding image = MIN_GREY) := by
  clear hX hY hZ
  constructor
  · rintro ⟨h1, h2, h3, h4, h5, h6, h7⟩
    simp only [GuessPadding, ← h1, ← h2, ← h3, ← h4, ← h5, ← h6, ← h7]
    simp
  · intro h
    unfold AllCornersEqual at h
    simp only [not_and_or] at h
    rcases h with h | h | h | h | h | h | h <;>
      · simp only [GuessPadding]
        rw [if_pos h]
        simp only [ite_self]
        simp

/-- Witness for C1: on the all-ones 1×1×1 image `GuessPadding` returns 1,
and on a 2×1×1 image with differing corners it returns `MIN_GREY`. -/
theorem guessPadding_spec_witness :
    GuessPadding ⟨1, 1, 1, fun _ _ _ => 1⟩ = 1 ∧
    GuessPadding ⟨2, 1, 1, fun x _ _ => if x = 0 then 1 else 2⟩ = MIN_GREY := by
  constructor
  · exact (guessPadding_spec ⟨1, 1, 1, fun _ _ _ => 1⟩ (by decide) (by decide) (by decide)).1
      ⟨rfl, rfl, rfl, rfl, rfl, rfl, rfl⟩
  · exact (guessPadding_spec ⟨2, 1, 1, fun x _ _ => if x = 0 then 1 else 2⟩
      (by decide) (by decide) (by decide)).2 (fun h => absurd h.1 (by decide))

/-- C2: `GuessResolution(xsize, ysize, zsize)` returns the maximum of its
three arguments, and the two-argument overload returns the maximum of its
two arguments. -/
theorem guessResolution_max (x y z : ℚ) :
    GuessResolution3 x y z = max x (max y z) ∧ GuessResolution2 x y = max x y := by
  constructor
  · unfold GuessResolution3
    simp only [ge_iff_le]
    split_ifs with h1 h2
    · rw [max_eq_left (max_le h1.1 h1.2)]
    · rw [max_eq_left h2.2, max_eq_right h2.1]
    · rw [not_and_or] at h1 h2
      have hzy : y ≤ z := by
        rcases h2 with h | h
        · rcases h1 with h' | h'
          · exact absurd (le_of_not_le h) h'
          · exact le_of_lt (lt_trans (not_le.mp h) (not_le.mp h'))
        · exact le_of_not_le h
      have hzx : x ≤ z := by
        rcases h1 with h' | h'
        · exact le_trans (le_of_lt (not_le.mp h')) hzy
        · exact le_of_not_le h'
      rw [max_eq_right hzy, max_eq_right hzx]
  · unfold GuessResolution2
    simp only [gt_iff_lt]
    split_ifs with h
    · rw [max_eq_left h.le]
    · rw [max_eq_right (not_lt.mp h)]

/-- Mathematical value of `int(ceil(range/(double)width))` for integer
`range` and positive integer `width`.  Both operands are machine integers,
so the `double` quotient is within one ulp of the true quotient and its
ceiling is the exact mathematical ceiling, which for `w > 0` equals the
floor of `(r + w - 1) / w`. -/
def ceilDivI (r : Int) (w : Nat) : Int := (r + w - 1) / w

/-- If the ceiling quotient is at least 2 then the divisor is below the
dividend (used for termination of the width-search loop). -/
theorem two_le_ceilDivI_imp (r : Int) (w : Nat) (hw : 1 ≤ w)
    (h : 2 ≤ ceilDivI r w) : (w : Int) < r := by
  unfold ceilDivI at h
  have hw0 : (0 : Int) < (w : Int) := by exact_mod_cast hw
  have he := Int.ediv_add_emod (r + w - 1) w
  have hm0 := Int.emod_nonneg (r + w - 1) (by omega : (w : Int) ≠ 0)
  have hq : 2 * (w : Int) ≤ ((r + w - 1) / w) * w :=
    mul_le_mul_of_nonneg_right h hw0.le
  rw [mul_comm] at hq
  linarith

/-- Embedding of the width-search loop of `irtkCalculateNumberOfBins`
(irtkUtil.cc:147-149): `while (int(ceil(range/(double)width)) > maxbin)
width++;`.  The loop is only ever entered with `maxbin > 0` (guarded by
`if (maxbin > 0)`), which is what makes it terminate, so that fact is
carried as an argument. -/
def findWidthGo (r maxbin : Int) (hm : 1 ≤ maxbin) (w : Nat) (hw : 1 ≤ w) : Nat :=
  if h : maxbin < ceilDivI r w then
    findWidthGo r maxbin hm (w + 1) (le_trans hw (Nat.le_succ w))
  else w
termination_by r.toNat - w
decreasing_by
  have h2 : 2 ≤ ceilDivI r w := by omega
  have h3 := two_le_ceilDivI_imp r w hw h2
  omega

/-- Loop invariant and post-condition of the width search: the result `W`
satisfies `ceil(range/W) ≤ maxbin`, is at least the starting width, and
every width between the starting width and `W` failed the test. -/
theorem findWidthGo_spec (r maxbin : Int) (hm : 1 ≤ maxbin) :
    ∀ w hw, ceilDivI r (findWidthGo r maxbin hm w hw) ≤ maxbin ∧
      w ≤ findWidthGo r maxbin hm w hw ∧
      ∀ w', w ≤ w' → w' < findWidthGo r maxbin hm w hw → maxbin < ceilDivI r w' := by
  have key : ∀ n w hw, r.toNat - w ≤ n →
      ceilDivI r (findWidthGo r maxbin hm w hw) ≤ maxbin ∧
      w ≤ findWidthGo r maxbin hm w hw ∧
      ∀ w', w ≤ w' → w' < findWidthGo r maxbin hm w hw → maxbin < ceilDivI r w' := by
    intro n
    induction n with
    | zero =>
      intro w hw hn
      rw [findWidthGo]
      split
      · rename_i hguard
        have h2 : 2 ≤ ceilDivI r w := by omega
        have h3 := two_le_ceilDivI_imp r w hw h2
        omega
      · rename_i hguard
        exact ⟨by omega, le_refl w, fun w' h1 h2 => absurd (lt_of_le_of_lt h1 h2) (lt_irrefl w)⟩
    | succ n ih =>
      intro w hw hn
      rw [findWidthGo]
      split
      · rename_i hguard
        have h2 : 2 ≤ ceilDivI r w := by omega
        have h3 := two_le_ceilDivI_imp r w hw h2
        have hrec := ih (w + 1) (le_trans hw (Nat.le_succ w)) (by omega)
        refine ⟨hrec.1, le_trans (Nat.le_succ w) hrec.2.1, fun w' hle hlt => ?_⟩
        rcases Nat.eq_or_lt_of_le hle with heq | hlt'
        · rw [heq] at hguard; exact hguard
        · exact hrec.2.2 w' hlt' hlt
      · rename_i hguard
        exact ⟨by omega, le_refl w, fun w' h1 h2 => absurd (lt_of_le_of_lt h1 h2) (lt_irrefl w)⟩
  exact fun w hw => key (r.toNat - w) w hw (le_refl _)

/-- The bin width chosen by `irtkCalculateNumberOfBins` when `maxbin > 0`:
the final value of `width` after the search loop starting at 1. -/
def binWidth (maxbin vmin vmax : Int) (h : 0 < maxbin) : Nat :=
  findWidthGo (vmax - vmin + 1) maxbin h 1 (le_refl 1)

/-- Embedding of `irtkCalculateNumberOfBins` (irtkUtil.cc:135-171).  The
image is the flat voxel list traversed by `GetPointerToVoxels`; the result
pairs the returned `nbins` with the rescaled image.  `int(*ptr/(double)width)`
on a positive `short` and positive integer width is the exact floor
quotient, modelled by `Int` division. -/
def irtkCalculateNumberOfBins (image : List Int) (maxbin vmin vmax : Int) :
    Int × List Int :=
  let range : Int := vmax - vmin + 1
  if h : 0 < maxbin then
    let width : Nat := binWidth maxbin vmin vmax h
    (ceilDivI range width, image.map fun v => if 0 < v then v / (width : Int) else v)
  else
    (range, image.map fun v => if 0 < v then v / ((1 : Nat) : Int) else v)

/-- Embedding of the array overload of `irtkCalculateNumberOfBins`
(irtkUtil.cc:173-211): identical bin computation, rescaling applied to each
image of the list. -/
def irtkCalculateNumberOfBinsMulti (images : List (List Int)) (maxbin vmin vmax : Int) :
    Int × List (List Int) :=
  let range : Int := vmax - vmin + 1
  if h : 0 < maxbin then
    let width : Nat := binWidth maxbin vmin vmax h
    (ceilDivI range width,
      images.map fun image => image.map fun v => if 0 < v then v / (width : Int) else v)
  else
    (range, images.map fun image => image.map fun v => if 0 < v then v / ((1 : Nat) : Int) else v)

/-- C3: with `maxbin = 0` the function returns `max - min + 1` and leaves
the image unchanged (every positive voxel is divided by 1); with
`maxbin > 0` it returns `nbins = ceil((max - min + 1)/width) ≤ maxbin`
where `width` is the smallest positive integer achieving that bound, and
every positive voxel `v` becomes `floor(v/width)` while voxels `≤ 0` are
unchanged. -/
theorem calculateNumberOfBins_spec (image : List Int) (maxbin vmin vmax : Int)
    (hle : vmin ≤ vmax) :
    (irtkCalculateNumberOfBins image 0 vmin vmax = (vmax - vmin + 1, image)) ∧
    (∀ h : 0 < maxbin,
      (irtkCalculateNumberOfBins image maxbin vmin vmax).1
          = ceilDivI (vmax - vmin + 1) (binWidth maxbin vmin vmax h) ∧
      (irtkCalculateNumberOfBins image maxbin vmin vmax).1 ≤ maxbin ∧
      1 ≤ binWidth maxbin vmin vmax h ∧
      (∀ w', 1 ≤ w' → ceilDivI (vmax - vmin + 1) w' ≤ maxbin →
        binWidth maxbin vmin vmax h ≤ w') ∧
      (irtkCalculateNumberOfBins image maxbin vmin vmax).2
          = image.map (fun v => if 0 < v then v / (binWidth maxbin vmin vmax h : Int) else v)) := by
  clear hle
  constructor
  · unfold irtkCalculateNumberOfBins
    rw [dif_neg (lt_irrefl (0 : Int))]
    simp [Nat.cast_one, Int.ediv_one, ite_self, List.map_id]
  · intro h
    have hspec := findWidthGo_spec (vmax - vmin + 1) maxbin h 1 (le_refl 1)
    unfold irtkCalculateNumberOfBins
    rw [dif_pos h]
    refine ⟨rfl, hspec.1, hspec.2.1, fun w' hw' hle' => ?_, rfl⟩
    by_contra hc
    push_neg at hc
    exact absurd hle' (not_le.mpr (hspec.2.2 w' hw' hc))

/-- Witness for C3: with image `[3, -2, 7]`, `min = 0`, `max = 9`,
`maxbin = 0` returns 10 bins and the unchanged image; with `maxbin = 2`
the returned bin count is at most 2. -/
theorem calculateNumberOfBins_spec_witness :
    ((0 : Int) ≤ 9) ∧
    irtkCalculateNumberOfBins [3, -2, 7] 0 0 9 = (9 - 0 + 1, [3, -2, 7]) ∧
    (irtkCalculateNumberOfBins [3, -2, 7] 2 0 9).1 ≤ 2 :=
  ⟨by decide, (calculateNumberOfBins_spec [3, -2, 7] 0 0 9 (by decide)).1,
   ((calculateNumberOfBins_spec [3, -2, 7] 2 0 9 (by decide)).2 (by decide)).2.1⟩

/-- The replacement values written into a run of `-1` voxels of length `n`
by `irtkPadding` (irtkUtil.cc:56-58): position `p` of the run (counting
from 0) receives `-(n - p)`, i.e. the values `-n, -(n-1), …, -1`. -/
def padRun (n : Nat) : List Int :=
  (List.range n).map (fun (p : Nat) => -((n : Int) - (p : Int)))

/-- One x-row of the distance pass of `irtkPadding` (irtkUtil.cc:49-61):
scan left to right; at each voxel equal to `-1`, find the end `l` of the
consecutive run of `-1` values, overwrite the run positions `p ∈ [i, l)`
with `-(l - p)`, and resume the scan at `l`. -/
def padRow : List Int → List Int
  | [] => []
  | v :: rest =>
    if h : v = -1 then
      let k := ((v :: rest).takeWhile (fun x => x == -1)).length
      padRun k ++ padRow ((v :: rest).drop k)
    else
      v :: padRow rest
termination_by row => row.length
decreasing_by
  · have hk : ((v :: rest).takeWhile (fun x : Int => x == -1)).length
        = (rest.takeWhile (fun x : Int => x == -1)).length + 1 := by
      rw [List.takeWhile_cons_of_pos (by simp [h])]
      simp
    simp only [List.length_drop, hk]
    simp [Nat.lt_succ_iff]
  · simp [Nat.lt_succ_self]

/-- Length of the maximal run of consecutive `-1` values of `row` starting
at position `p` (zero when `row` does not hold `-1` at `p`). -/
def dist (row : List Int) (p : Nat) : Nat :=
  ((row.drop p).takeWhile (fun x => x == -1)).length

/-- The x-index one past the end of the run of consecutive `-1` values
containing position `p`: the first index `≥ p` holding a value other than
`-1` (or the row length when the run reaches the end of the row).  This is
the loop variable `l` of irtkUtil.cc:51-55. -/
def runEnd (row : List Int) (p : Nat) : Nat := p + dist row p

/-- Embedding of `irtkPadding(image, padding)` (irtkUtil.cc:15-66).  The
image is the collection of its x-rows (one per `(j,k,t)`); the first loop
nest counts voxels below zero (`n`), and the distance pass runs only when
`n > 0`.  The `padding` argument is only printed by the source. -/
def irtkPadding (img : List (List Int)) (padding : Int) : List (List Int) :=
  if img.any (fun row => row.any (fun v => v < 0)) then img.map padRow else img

/-- Every position strictly inside the `-1`-prefix measured by `takeWhile`
holds the value `-1`. -/
theorem takeWhile_all_neg1 (l : List Int) :
    ∀ j, j < (l.takeWhile (fun x => x == -1)).length → l[j]? = some (-1) := by
  induction l with
  | nil => intro j hj; simp at hj
  | cons v rest ih =>
    intro j hj
    by_cases hv : v = -1
    · rw [List.takeWhile_cons_of_pos (by simp [hv])] at hj
      cases j with
      | zero => simp [hv]
      | succ j =>
        simp only [List.length_cons, Nat.succ_lt_succ_iff] at hj
        simpa using ih j hj
    · rw [List.takeWhile_cons_of_neg (by simp [hv])] at hj
      simp at hj

/-- The position just past the `-1`-prefix either is the end of the list or
holds a value other than `-1` (maximality of the run). -/
theorem takeWhile_end_neg1 (l : List Int) :
    (l.takeWhile (fun x => x == -1)).length = l.length ∨
      ∀ v, l[(l.takeWhile (fun x => x == -1)).length]? = some v → v ≠ -1 := by
  induction l with
  | nil => left; rfl
  | cons v rest ih =>
    by_cases hv : v = -1
    · rw [List.takeWhile_cons_of_pos (by simp [hv])]
      rcases ih with h | h
      · left; simp [h]
      · right; intro w hw
        simp only [List.length_cons, List.getElem?_cons_succ] at hw
        exact h w hw
    · rw [List.takeWhile_cons_of_neg (by simp [hv])]
      right; intro w hw
      simp only [List.length_nil, List.getElem?_cons_zero, Option.some.injEq] at hw
      rw [hw] at hv
      exact fun hc => hv hc

/-- Shifting the start point inside the `-1`-prefix shortens the measured
run length accordingly. -/
theorem dist_of_lt (row : List Int) :
    ∀ p, p < (row.takeWhile (fun x => x == -1)).length →
      dist row p = (row.takeWhile (fun x => x == -1)).length - p := by
  induction row with
  | nil => intro p hp; simp at hp
  | cons v rest ih =>
    intro p hp
    by_cases hv : v = -1
    · rw [List.takeWhile_cons_of_pos (by simp [hv])] at hp ⊢
      cases p with
      | zero =>
        unfold dist
        rw [List.drop_zero, List.takeWhile_cons_of_pos (by simp [hv])]
        simp
      | succ p =>
        have hd : dist (v :: rest) (p + 1) = dist rest p := by
          simp [dist, List.drop_succ_cons]
        rw [hd, ih p (by simpa using hp)]
        simp only [List.length_cons]
        omega
    · rw [List.takeWhile_cons_of_neg (by simp [hv])] at hp
      simp at hp

/-- Run length measured from position `p + 1` of `v :: rest` equals the run
length measured from position `p` of `rest`. -/
theorem dist_succ_cons (v : Int) (rest : List Int) (p : Nat) :
    dist (v :: rest) (p + 1) = dist rest p := by
  simp [dist, List.drop_succ_cons]

theorem padRun_length (n : Nat) : (padRun n).length = n := by
  unfold padRun
  rw [List.length_map, List.length_range]

theorem padRow_nil : padRow [] = [] := by
  rw [padRow]

theorem padRow_cons_neg1 (v : Int) (rest : List Int) (h : v = -1) :
    padRow (v :: rest) =
      padRun (((v :: rest).takeWhile (fun x => x == -1)).length) ++
        padRow ((v :: rest).drop (((v :: rest).takeWhile (fun x => x == -1)).length)) := by
  rw [padRow, dif_pos h]

theorem padRow_cons_other (v : Int) (rest : List Int) (h : ¬ v = -1) :
    padRow (v :: rest) = v :: padRow rest := by
  rw [padRow, dif_neg h]

/-- Positional characterization of the distance pass: a voxel equal to `-1`
becomes the negated run length to the run's end; any other voxel keeps its
value. -/
theorem padRow_getElem? (row : List Int) (p : Nat) :
    (padRow row)[p]? =
      (row[p]?).map (fun v => if v = -1 then -(dist row p : Int) else v) := by
  have key : ∀ n (row : List Int), row.length ≤ n → ∀ p, (padRow row)[p]? =
      (row[p]?).map (fun v => if v = -1 then -(dist row p : Int) else v) := by
    intro n
    induction n with
    | zero =>
      intro row hrow p
      rw [List.eq_nil_of_length_eq_zero (Nat.le_zero.mp hrow)]
      simp [padRow_nil]
    | succ n ih =>
      intro row hrow p
      match row with
      | [] => simp [padRow_nil]
      | v :: rest =>
        by_cases hv : v = -1
        · rw [padRow_cons_neg1 v rest hv]
          have hk1 : 1 ≤ ((v :: rest).takeWhile (fun x => x == -1)).length := by
            rw [List.takeWhile_cons_of_pos (by simp [hv])]
            simp
          have hk2 : ((v :: rest).takeWhile (fun x => x == -1)).length ≤ (v :: rest).length :=
            (List.takeWhile_prefix _).length_le
          by_cases hp : p < ((v :: rest).takeWhile (fun x => x == -1)).length
          · rw [List.getElem?_append_left (by rw [padRun_length]; exact hp)]
            rw [takeWhile_all_neg1 (v :: rest) p hp]
            have hdp := dist_of_lt (v :: rest) p hp
            have hpr : (padRun (((v :: rest).takeWhile (fun x => x == -1)).length))[p]?
                = some (-(((((v :: rest).takeWhile (fun x => x == -1)).length : Int))
                    - (p : Int))) := by
              unfold padRun
              rw [List.getElem?_map, List.getElem?_range hp, Option.map_some']
            rw [hpr, Option.map_some']
            have hcast : ((((v :: rest).takeWhile (fun x => x == -1)).length - p : Nat) : Int)
                = (((v :: rest).takeWhile (fun x => x == -1)).length : Int) - (p : Int) := by
              omega
            rw [if_pos rfl, hdp, hcast]
          · push_neg at hp
            rw [List.getElem?_append_right (by rw [padRun_length]; exact hp)]
            rw [padRun_length]
            rw [ih ((v :: rest).drop (((v :: rest).takeWhile (fun x => x == -1)).length))
              (by simp only [List.length_drop]; simp only [List.length_cons] at hrow ⊢; omega)]
            have hidx : (((v :: rest).takeWhile (fun x => x == -1)).length
                + (p - ((v :: rest).takeWhile (fun x => x == -1)).length)) = p := by omega
            rw [List.getElem?_drop, hidx]
            have hdist : dist ((v :: rest).drop (((v :: rest).takeWhile (fun x => x == -1)).length))
                (p - ((v :: rest).takeWhile (fun x => x == -1)).length) = dist (v :: rest) p := by
              unfold dist
              rw [List.drop_drop, hidx]
            rw [hdist]
        · rw [padRow_cons_other v rest hv]
          cases p with
          | zero => simp [hv]
          | succ p =>
            simp only [List.getElem?_cons_succ]
            rw [ih rest (by simp only [List.length_cons] at hrow; omega) p]
            rw [dist_succ_cons]
  exact key row.length row (le_refl _) p

/-- The distance pass preserves the row length. -/
theorem padRow_length (row : List Int) : (padRow row).length = row.length := by
  have key : ∀ n (row : List Int), row.length ≤ n → (padRow row).length = row.length := by
    intro n
    induction n with
    | zero =>
      intro row hrow
      rw [List.eq_nil_of_length_eq_zero (Nat.le_zero.mp hrow)]
      rw [padRow_nil]
    | succ n ih =>
      intro row hrow
      match row with
      | [] => rw [padRow_nil]
      | v :: rest =>
        by_cases hv : v = -1
        · rw [padRow_cons_neg1 v rest hv]
          have hk1 : 1 ≤ ((v :: rest).takeWhile (fun x => x == -1)).length := by
            rw [List.takeWhile_cons_of_pos (by simp [hv])]
            simp
          have hk2 : ((v :: rest).takeWhile (fun x => x == -1)).length ≤ (v :: rest).length :=
            (List.takeWhile_prefix _).length_le
          rw [List.length_append, padRun_length,
            ih ((v :: rest).drop _) (by simp only [List.length_drop]; simp only [List.length_cons] at hrow ⊢; omega)]
          simp only [List.length_drop]
          omega
        · rw [padRow_cons_other v rest hv]
          simp only [List.length_cons]
          rw [ih rest (by simp only [List.length_cons] at hrow; omega)]
  exact key row.length row (le_refl _)

/-- A lookup that succeeds implies the index is in range. -/
theorem lt_length_of_getElem?_eq_some {l : List Int} {n : Nat} {a : Int}
    (h : l[n]? = some a) : n < l.length := by
  by_contra hc
  push_neg at hc
  rw [List.getElem?_eq_none hc] at h
  exact Option.noConfusion h

/-- C8: `irtkPadding(image, padding)` modifies only voxels whose value is
exactly `-1`; a voxel at x-index `p` inside a maximal run of consecutive
`-1` values ending just before x-index `l = runEnd row p` becomes
`-(l - p)`; an image holding no voxel with value below zero is left
entirely unchanged. -/
theorem irtkPadding_spec (img : List (List Int)) (padding : Int) :
    ((∀ row ∈ img, ∀ v ∈ row, 0 ≤ v) → irtkPadding img padding = img) ∧
    (∀ (r : Nat) (row : List Int), img[r]? = some row →
      ∃ row' : List Int, (irtkPadding img padding)[r]? = some row' ∧
        row'.length = row.length ∧
        (∀ (p : Nat) (v : Int), row[p]? = some v → v ≠ -1 → row'[p]? = some v) ∧
        (∀ p : Nat, row[p]? = some (-1) →
          (∀ j : Nat, p ≤ j → j < runEnd row p → row[j]? = some (-1)) ∧
          (runEnd row p = row.length ∨
            ∀ v : Int, row[runEnd row p]? = some v → v ≠ -1) ∧
          row'[p]? = some (-((runEnd row p - p : Nat) : Int)))) := by
  constructor
  · intro h
    unfold irtkPadding
    rw [if_neg]
    intro hc
    rw [List.any_eq_true] at hc
    obtain ⟨row, hrow, hc⟩ := hc
    rw [List.any_eq_true] at hc
    obtain ⟨v, hv, hc⟩ := hc
    have hge := h row hrow v hv
    simp only [decide_eq_true_eq] at hc
    omega
  · intro r row hr
    by_cases hg : img.any (fun row => row.any (fun v => v < 0)) = true
    · refine ⟨padRow row, ?_, padRow_length row, ?_, ?_⟩
      · unfold irtkPadding
        rw [if_pos hg, List.getElem?_map, hr, Option.map_some']
      · intro p v hpv hne
        rw [padRow_getElem?, hpv, Option.map_some', if_neg hne]
      · intro p hp1
        have hplen : p < row.length := lt_length_of_getElem?_eq_some hp1
        refine ⟨?_, ?_, ?_⟩
        · intro j hj1 hj2
          have hd : j - p < ((row.drop p).takeWhile (fun x => x == -1)).length := by
            unfold runEnd dist at hj2
            omega
          have := takeWhile_all_neg1 (row.drop p) (j - p) hd
          rw [List.getElem?_drop] at this
          rw [show p + (j - p) = j by omega] at this
          exact this
        · rcases takeWhile_end_neg1 (row.drop p) with h | h
          · left
            unfold runEnd dist
            rw [h, List.length_drop]
            omega
          · right
            intro v hv
            apply h v
            rw [List.getElem?_drop]
            exact hv
        · rw [padRow_getElem?, hp1, Option.map_some', if_pos rfl]
          unfold runEnd
          rw [Nat.add_sub_cancel_left]
    · have himg : irtkPadding img padding = img := by
        unfold irtkPadding
        rw [if_neg hg]
      have hrow_mem : row ∈ img := List.getElem?_mem hr
      have hnoneg : ∀ v ∈ row, 0 ≤ v := by
        intro v hv
        by_contra hc
        push_neg at hc
        apply hg
        rw [List.any_eq_true]
        exact ⟨row, hrow_mem, by rw [List.any_eq_true]; exact ⟨v, hv, by simpa using hc⟩⟩
      refine ⟨row, by rw [himg, hr], rfl, fun p v hpv _ => hpv, ?_⟩
      intro p hp1
      have : (-1 : Int) ∈ row := List.getElem?_mem hp1
      have := hnoneg (-1) this
      omega


/-- Witness for C8: an all-nonnegative image is unchanged, and in the row
`[5, -1, -1, 3]` the run of `-1` at indices 1-2 ends just before index 3,
so position 1 receives `-(3 - 1) = -2`. -/
theorem irtkPadding_spec_witness :
    irtkPadding [[2, 0, 1]] 0 = [[2, 0, 1]] ∧
    runEnd [5, -1, -1, 3] 1 = 3 ∧
    ∃ row', (irtkPadding [[5, -1, -1, 3]] 0)[0]? = some row' ∧ row'[1]? = some (-2) := by
  refine ⟨(irtkPadding_spec [[2, 0, 1]] 0).1 (by decide), by decide, ?_⟩
  obtain ⟨row', h1, hlen, hother, hneg⟩ :=
    (irtkPadding_spec [[5, -1, -1, 3]] 0).2 0 [5, -1, -1, 3] (by decide)
  refine ⟨row', h1, ?_⟩
  have h2 := (hneg 1 (by decide)).2.2
  rw [h2]
  decide


/-- Result of `read_line` (irtkUtil.cc:213-232).  `eof` models the
`return 0` path taken when the stream is exhausted before an acceptable
line is found; `fatal code msg` models `cerr << msg; exit(code)`;
`ok ret buffer1 buffer2` models a successful parse: the returned value
`ret = strlen(buffer1)`, the accepted line `buffer1`, and the value
pointer `buffer2` (modelled as the suffix of `buffer1` it points into). -/
inductive ReadLineResult where
  | eof : ReadLineResult
  | fatal : Nat → String → ReadLineResult
  | ok : Nat → List Char → List Char → ReadLineResult
deriving DecidableEq

/-- The value the C function returns to its caller: `0` at end of file,
`strlen(buffer1)` on success, and nothing on the `exit(1)` path (the
process terminates instead of returning). -/
def returnValue : ReadLineResult → Option Nat
  | ReadLineResult.eof => some 0
  | ReadLineResult.fatal _ _ => none
  | ReadLineResult.ok n _ _ => some n

/-- The skip condition of the do-while loop (irtkUtil.cc:217-221): a line
is rejected and the next one read when it is empty, or its first character
is `'#'`, or its first character is the carriage return (ASCII 13). -/
def skippedLine (l : List Char) : Bool :=
  match l with
  | [] => true
  | c :: _ => c == '#' || c == Char.ofNat 13

/-- `strchr(buffer1, '=')` (irtkUtil.cc:223): the suffix starting at the
first occurrence of `'='`, or `none` when the line holds no `'='`. -/
def findEq : List Char → Option (List Char)
  | [] => none
  | c :: rest => if c = '=' then some (c :: rest) else findEq rest

/-- Embedding of `read_line` (irtkUtil.cc:213-232) over the list of lines
remaining in the stream (the empty list models a stream at end of file).
The do-while loop reads and discards lines until one passes the skip
condition; a surviving line without `'='` is fatal (`exit(1)` after the
diagnostic); otherwise the value pointer is advanced once past the `'='`
and then past every space and tab. -/
def read_line : List (List Char) → ReadLineResult
  | [] => ReadLineResult.eof
  | l :: rest =>
    if skippedLine l then read_line rest
    else
      match findEq l with
      | none => ReadLineResult.fatal 1 "No valid line format\n"
      | some s =>
          ReadLineResult.ok l.length l
            ((s.drop 1).dropWhile (fun c => c == ' ' || c == '\t'))

/-- A line with no `'='` makes `strchr` fail. -/
theorem findEq_eq_none_iff (l : List Char) : findEq l = none ↔ '=' ∉ l := by
  induction l with
  | nil => simp [findEq]
  | cons c rest ih =>
    unfold findEq
    by_cases hc : c = '='
    · simp [hc]
    · rw [if_neg hc, ih]
      simp [hc]
      intro h
      exact fun he => hc he.symm

/-- `strchr` returns the suffix at the first `'='`: the line splits into a
prefix free of `'='` followed by the found suffix. -/
theorem findEq_eq_some (l : List Char) :
    ∀ s, findEq l = some s →
      ∃ pre post, l = pre ++ '=' :: post ∧ '=' ∉ pre ∧ s = '=' :: post := by
  induction l with
  | nil => intro s hs; exact Option.noConfusion hs
  | cons c rest ih =>
    intro s hs
    unfold findEq at hs
    by_cases hc : c = '='
    · rw [if_pos hc] at hs
      exact ⟨[], rest, by rw [hc]; rfl, by simp, by rw [← Option.some.inj hs, hc]⟩
    · rw [if_neg hc] at hs
      obtain ⟨pre, post, h1, h2, h3⟩ := ih s hs
      refine ⟨c :: pre, post, by rw [List.cons_append, h1], ?_, h3⟩
      intro hm
      rcases List.mem_cons.mp hm with h | h
      · exact hc h.symm
      · exact h2 h

/-- Empty lines and `'#'` lines satisfy the skip condition. -/
theorem skippedLine_of_empty_or_hash (l : List Char)
    (h : l = [] ∨ l.head? = some '#') : skippedLine l = true := by
  rcases h with h | h
  · rw [h]; rfl
  · match l with
    | [] => rfl
    | c :: rest =>
      simp only [List.head?_cons, Option.some.injEq] at h
      simp [skippedLine, h]

theorem read_line_nil : read_line [] = ReadLineResult.eof := rfl

theorem read_line_cons (l : List Char) (rest : List (List Char)) :
    read_line (l :: rest) =
      if skippedLine l then read_line rest
      else
        match findEq l with
        | none => ReadLineResult.fatal 1 "No valid line format\n"
        | some s =>
            ReadLineResult.ok l.length l
              ((s.drop 1).dropWhile (fun c => c == ' ' || c == '\t')) := rfl

/-- Skipped lines are transparent to `read_line`. -/
theorem read_line_skip (pre : List (List Char))
    (h : ∀ s ∈ pre, skippedLine s = true) :
    ∀ xs, read_line (pre ++ xs) = read_line xs := by
  induction pre with
  | nil => intro xs; rfl
  | cons s pre ih =>
    intro xs
    rw [List.cons_append, read_line_cons, if_pos (h s (List.mem_cons_self s pre))]
    exact ih (fun t ht => h t (List.mem_cons_of_mem s ht)) xs

/-- The result on a non-skipped line is computed from that line alone. -/
theorem read_line_cons_not_skipped (l : List Char) (rest : List (List Char))
    (h : skippedLine l = false) :
    read_line (l :: rest) = read_line [l] := by
  rw [read_line_cons, read_line_cons, if_neg (by rw [h]; exact Bool.false_ne_true),
    if_neg (by rw [h]; exact Bool.false_ne_true)]


/-- `strchr` on a line whose first `'='` follows an `'='`-free prefix
returns the suffix at that `'='`. -/
theorem findEq_append_no_eq (pre post : List Char) (h : '=' ∉ pre) :
    findEq (pre ++ '=' :: post) = some ('=' :: post) := by
  induction pre with
  | nil => simp [findEq]
  | cons c pre ih =>
    rw [List.cons_append]
    unfold findEq
    have hc : ¬ c = '=' := fun hc => h (by rw [hc]; exact List.mem_cons_self _ _)
    rw [if_neg hc]
    exact ih (fun hm => h (List.mem_cons_of_mem c hm))

/-- The head surviving `dropWhile` fails the predicate. -/
theorem head?_dropWhile_not (p : Char → Bool) (l : List Char) :
    ∀ c, (l.dropWhile p).head? = some c → p c = false := by
  induction l with
  | nil => intro c hc; exact Option.noConfusion hc
  | cons a l ih =>
    intro c hc
    rw [List.dropWhile_cons] at hc
    by_cases hp : p a = true
    · rw [if_pos hp] at hc
      exact ih c hc
    · rw [if_neg hp] at hc
      simp only [List.head?_cons, Option.some.injEq] at hc
      rw [← hc]
      exact Bool.eq_false_iff.mpr hp

/-- C4: whenever `read_line` accepts a parameter-file line (one not skipped
as empty or comment) that holds no `'='`, it prints the diagnostic and
terminates the process with exit status 1, returning no parsed result. -/
theorem read_line_no_eq_fatal (pre : List (List Char)) (l : List Char)
    (rest : List (List Char))
    (hpre : ∀ s ∈ pre, skippedLine s = true)
    (hl : skippedLine l = false)
    (hno : '=' ∉ l) :
    read_line (pre ++ l :: rest) = ReadLineResult.fatal 1 "No valid line format\n" ∧
    returnValue (read_line (pre ++ l :: rest)) = none := by
  rw [read_line_skip pre hpre (l :: rest), read_line_cons,
    if_neg (by rw [hl]; exact Bool.false_ne_true), (findEq_eq_none_iff l).mpr hno]
  exact ⟨rfl, rfl⟩

/-- Witness for C4: after an empty line, a comment line and a CR line, the
line `Key` with no `'='` is fatal. -/
theorem read_line_no_eq_fatal_witness :
    (∀ s ∈ [([] : List Char), ['#', 'a'], [Char.ofNat 13]], skippedLine s = true) ∧
    skippedLine ['K', 'e', 'y'] = false ∧ '=' ∉ ['K', 'e', 'y'] ∧
    read_line ([[], ['#', 'a'], [Char.ofNat 13]] ++ ['K', 'e', 'y'] :: []) =
      ReadLineResult.fatal 1 "No valid line format\n" :=
  ⟨by decide, by decide, by decide,
    (read_line_no_eq_fatal [[], ['#', 'a'], [Char.ofNat 13]] ['K', 'e', 'y'] []
      (by decide) (by decide) (by decide)).1⟩

/-- C5: `read_line` skips every empty line and every line whose first
character is `'#'`; the returned buffer and value pointer are computed from
the first subsequent non-skipped line alone, with no contribution from the
skipped lines. -/
theorem read_line_skips_empty_and_comment (pre : List (List Char))
    (hpre : ∀ s ∈ pre, s = [] ∨ s.head? = some '#') :
    (∀ xs, read_line (pre ++ xs) = read_line xs) ∧
    (∀ (l : List Char) (rest : List (List Char)), skippedLine l = false →
      read_line (pre ++ l :: rest) = read_line [l]) := by
  have h : ∀ s ∈ pre, skippedLine s = true :=
    fun s hs => skippedLine_of_empty_or_hash s (hpre s hs)
  refine ⟨read_line_skip pre h, fun l rest hl => ?_⟩
  rw [read_line_skip pre h (l :: rest), read_line_cons_not_skipped l rest hl]

/-- Witness for C5: an empty line and a comment line contribute nothing. -/
theorem read_line_skips_empty_and_comment_witness :
    (∀ s ∈ [([] : List Char), ['#', 'c']], s = [] ∨ s.head? = some '#') ∧
    read_line ([[], ['#', 'c']] ++ [['a', '=', 'b']]) = read_line [['a', '=', 'b']] :=
  ⟨by decide, (read_line_skips_empty_and_comment [[], ['#', 'c']] (by decide)).1 [['a', '=', 'b']]⟩

/-- C10: `read_line` returns 0 when the stream ends before an acceptable
line is found, without terminating the process; it also skips lines whose
first character is the carriage return (ASCII 13); on an accepted line it
returns the line's length and points the value pointer at the first
character after the `'='` that is neither a space nor a tab. -/
theorem read_line_eof_cr_and_value (lines : List (List Char))
    (hsk : ∀ s ∈ lines, skippedLine s = true) :
    (read_line lines = ReadLineResult.eof ∧ returnValue (read_line lines) = some 0) ∧
    (∀ (l : List Char) (rest : List (List Char)), l.head? = some (Char.ofNat 13) →
      read_line (l :: rest) = read_line rest) ∧
    (∀ (l : List Char) (rest : List (List Char)) (pre post : List Char),
      skippedLine l = false → l = pre ++ '=' :: post → '=' ∉ pre →
      read_line (l :: rest) =
        ReadLineResult.ok l.length l
          (post.dropWhile (fun c => c == ' ' || c == '\t')) ∧
      (∀ c ∈ post.takeWhile (fun c => c == ' ' || c == '\t'), c = ' ' ∨ c = '\t') ∧
      (∀ c : Char, (post.dropWhile (fun c => c == ' ' || c == '\t')).head? = some c →
        ¬(c = ' ' ∨ c = '\t'))) := by
  refine ⟨?_, ?_, ?_⟩
  · have h := read_line_skip lines hsk []
    rw [List.append_nil] at h
    rw [h, read_line_nil]
    exact ⟨rfl, rfl⟩
  · intro l rest hcr
    cases l with
    | nil => exact Option.noConfusion hcr
    | cons c tl =>
      simp only [List.head?_cons, Option.some.injEq] at hcr
      rw [read_line_cons, if_pos (by simp [skippedLine, hcr])]
  · intro l rest pre post hl heq hpre
    refine ⟨?_, ?_, ?_⟩
    · rw [read_line_cons, if_neg (by rw [hl]; exact Bool.false_ne_true)]
      rw [heq, findEq_append_no_eq pre post hpre]
      rfl
    · intro c hc
      have := List.mem_takeWhile_imp hc
      simp only [Bool.or_eq_true, beq_iff_eq] at this
      exact this
    · intro c hc
      have := head?_dropWhile_not (fun c => c == ' ' || c == '\t') post c hc
      simp only [Bool.or_eq_false_iff, beq_eq_false_iff_ne] at this
      intro hor
      rcases hor with h | h
      · exact this.1 h
      · exact this.2 h

/-- Witness for C10: end of file after a comment returns `eof` (value 0);
a CR-led line is skipped; `a= b` is accepted with length 4 and value
pointer at `b`. -/
theorem read_line_eof_cr_and_value_witness :
    (∀ s ∈ [['#']], skippedLine s = true) ∧
    read_line [['#']] = ReadLineResult.eof ∧
    read_line [[Char.ofNat 13, 'x'], ['a', '=', ' ', 'b']] =
      read_line [['a', '=', ' ', 'b']] ∧
    read_line [['a', '=', ' ', 'b']] =
      ReadLineResult.ok 4 ['a', '=', ' ', 'b'] ['b'] := by
  have h := read_line_eof_cr_and_value [['#']] (by decide)
  refine ⟨by decide, h.1.1, h.2.1 [Char.ofNat 13, 'x'] [['a', '=', ' ', 'b']] (by decide), ?_⟩
  have h3 := (h.2.2 ['a', '=', ' ', 'b'] [] ['a'] [' ', 'b'] (by decide) (by decide)
    (by decide)).1
  rw [h3]
  decide


/-- Control-point status of the free-form transformation lattice
(`_Active` / `_Passive` in the IRTK transformation library, external to
this repository). -/
inductive CPStatus where
  | Active : CPStatus
  | Passive : CPStatus
deriving DecidableEq

/-- Bounding box, in voxel indices of a given image, of the region
influenced by one control point (result of `ffd->BoundingBox`, an external
collaborator): inclusive ranges `[x1, x2] × [y1, y2] × [z1, z2]`. -/
structure BBox where
  x1 : Nat
  y1 : Nat
  z1 : Nat
  x2 : Nat
  y2 : Nat
  z2 : Nat

/-- A 4D grey image (x, y, z and time/frame axis), as traversed by the ffd
overload of `irtkPadding`. -/
structure GreyImage4 where
  X : Nat
  Y : Nat
  Z : Nat
  T : Nat
  data : Nat → Nat → Nat → Nat → Int

/-- The lattice of an `irtkFreeFormTransformation3D` as used by
`irtkPadding`: dimensions, per-control-point status, and the composite
`BoundingBox(&image, LatticeToIndex(i,j,k), …)` query (both functions are
external collaborators, so the box is an abstract per-point function). -/
structure FFD3D where
  X : Nat
  Y : Nat
  Z : Nat
  status : Nat → Nat → Nat → CPStatus
  boundingBox : Nat → Nat → Nat → BBox

/-- The `ok` flag scan of the ffd overload (irtkUtil.cc:83-94): `True`
exactly when some voxel of the bounding box, in some time frame, has
intensity strictly above `padding`. -/
def boxHasAbovePadding (image : GreyImage4) (padding : Int) (b : BBox) : Bool :=
  (List.range image.T).any fun t =>
    (List.range (b.z2 + 1 - b.z1)).any fun dz =>
      (List.range (b.y2 + 1 - b.y1)).any fun dy =>
        (List.range (b.x2 + 1 - b.x1)).any fun dx =>
          padding < image.data (b.x1 + dx) (b.y1 + dy) (b.z1 + dz) t

/-- Embedding of `irtkPadding(image, padding, ffd)` (irtkUtil.cc:68-101):
every lattice point whose bounding box holds no voxel above `padding` gets
status `_Passive`; no other status is ever written. -/
def irtkPaddingFFD (image : GreyImage4) (padding : Int) (ffd : FFD3D) : FFD3D :=
  { ffd with
    status := fun i j k =>
      if i < ffd.X ∧ j < ffd.Y ∧ k < ffd.Z ∧
          boxHasAbovePadding image padding (ffd.boundingBox i j k) = false then
        CPStatus.Passive
      else ffd.status i j k }

/-- Every voxel of the bounding box, over all time frames, has intensity
at most `padding` (the property deciding passivity). -/
def AllBoxAtOrBelow (image : GreyImage4) (padding : Int) (b : BBox) : Prop :=
  ∀ t x y z : Nat, t < image.T → b.x1 ≤ x → x ≤ b.x2 → b.y1 ≤ y → y ≤ b.y2 →
    b.z1 ≤ z → z ≤ b.z2 → image.data x y z t ≤ padding

/-- The `ok` scan is false exactly when every box voxel is at or below the
padding threshold. -/
theorem boxHasAbovePadding_eq_false_iff (image : GreyImage4) (padding : Int) (b : BBox) :
    boxHasAbovePadding image padding b = false ↔ AllBoxAtOrBelow image padding b := by
  unfold boxHasAbovePadding AllBoxAtOrBelow
  rw [Bool.eq_false_iff]
  simp only [ne_eq, List.any_eq_true, List.mem_range, decide_eq_true_eq, not_exists,
    not_and, not_lt]
  constructor
  · intro h t x y z ht hx1 hx2 hy1 hy2 hz1 hz2
    have hv := h t ht (z - b.z1) (by omega) (y - b.y1) (by omega) (x - b.x1) (by omega)
    rw [show b.x1 + (x - b.x1) = x by omega, show b.y1 + (y - b.y1) = y by omega,
      show b.z1 + (z - b.z1) = z by omega] at hv
    exact hv
  · intro h t ht dz hdz dy hdy dx hdx
    exact h t (b.x1 + dx) (b.y1 + dy) (b.z1 + dz) ht (by omega) (by omega) (by omega)
      (by omega) (by omega) (by omega)

theorem irtkPaddingFFD_status (image : GreyImage4) (padding : Int) (ffd : FFD3D)
    (i j k : Nat) :
    (irtkPaddingFFD image padding ffd).status i j k =
      if i < ffd.X ∧ j < ffd.Y ∧ k < ffd.Z ∧
          boxHasAbovePadding image padding (ffd.boundingBox i j k) = false then
        CPStatus.Passive
      else ffd.status i j k := rfl

/-- C9: the ffd overload of `irtkPadding` sets a control point to
`_Passive` exactly when every voxel of its bounding box, over all time
frames, is at or below `padding`; it never assigns `_Active`, so an
already-passive point stays passive even when its box holds voxels above
the threshold. -/
theorem irtkPaddingFFD_spec (image : GreyImage4) (padding : Int) (ffd : FFD3D)
    (i j k : Nat) (hi : i < ffd.X) (hj : j < ffd.Y) (hk : k < ffd.Z) :
    (AllBoxAtOrBelow image padding (ffd.boundingBox i j k) →
      (irtkPaddingFFD image padding ffd).status i j k = CPStatus.Passive) ∧
    (¬ AllBoxAtOrBelow image padding (ffd.boundingBox i j k) →
      (irtkPaddingFFD image padding ffd).status i j k = ffd.status i j k) ∧
    ((irtkPaddingFFD image padding ffd).status i j k = CPStatus.Active →
      ffd.status i j k = CPStatus.Active) ∧
    (ffd.status i j k = CPStatus.Passive →
      (irtkPaddingFFD image padding ffd).status i j k = CPStatus.Passive) := by
  simp only [irtkPaddingFFD_status]
  by_cases hbox : boxHasAbovePadding image padding (ffd.boundingBox i j k) = false
  · rw [if_pos ⟨hi, hj, hk, hbox⟩]
    have hall := (boxHasAbovePadding_eq_false_iff image padding (ffd.boundingBox i j k)).mp hbox
    exact ⟨fun _ => rfl, fun hc => absurd hall hc, fun hc => CPStatus.noConfusion hc,
      fun _ => rfl⟩
  · rw [if_neg (fun hc => hbox hc.2.2.2)]
    have hnall : ¬ AllBoxAtOrBelow image padding (ffd.boundingBox i j k) :=
      fun ha => hbox ((boxHasAbovePadding_eq_false_iff image padding (ffd.boundingBox i j k)).mpr ha)
    exact ⟨fun hc => absurd hc hnall, fun _ => rfl, fun hc => hc, fun hc => hc⟩

/-- Witness for C9: a 1×1×1×1 image with the single voxel value 5 and a
single-point lattice.  With padding 10 the box is all-below and the point
becomes passive; with padding 0 the active point keeps its status. -/
theorem irtkPaddingFFD_spec_witness :
    (irtkPaddingFFD ⟨1, 1, 1, 1, fun _ _ _ _ => 5⟩ 10
        ⟨1, 1, 1, fun _ _ _ => CPStatus.Active, fun _ _ _ => ⟨0, 0, 0, 0, 0, 0⟩⟩).status 0 0 0
      = CPStatus.Passive ∧
    (irtkPaddingFFD ⟨1, 1, 1, 1, fun _ _ _ _ => 5⟩ 0
        ⟨1, 1, 1, fun _ _ _ => CPStatus.Active, fun _ _ _ => ⟨0, 0, 0, 0, 0, 0⟩⟩).status 0 0 0
      = CPStatus.Active := by
  constructor
  · exact (irtkPaddingFFD_spec ⟨1, 1, 1, 1, fun _ _ _ _ => 5⟩ 10
      ⟨1, 1, 1, fun _ _ _ => CPStatus.Active, fun _ _ _ => ⟨0, 0, 0, 0, 0, 0⟩⟩ 0 0 0
      (by decide) (by decide) (by decide)).1
      (fun t x y z ht hx1 hx2 hy1 hy2 hz1 hz2 => by norm_num)
  · have h := (irtkPaddingFFD_spec ⟨1, 1, 1, 1, fun _ _ _ _ => 5⟩ 0
      ⟨1, 1, 1, fun _ _ _ => CPStatus.Active, fun _ _ _ => ⟨0, 0, 0, 0, 0, 0⟩⟩ 0 0 0
      (by decide) (by decide) (by decide)).2.1
      (fun ha => by have := ha 0 0 0 0 (by decide) (by decide) (by decide) (by decide)
                      (by decide) (by decide) (by decide)
                    norm_num at this)
    rw [h]


/-- The Demons mode enumeration (irtkDemonsRegistration.h:25):
`typedef enum { _AdditiveDemons, _CompositiveDemons } irtkDemonsMode`. -/
inductive irtkDemonsMode where
  | AdditiveDemons : irtkDemonsMode
  | CompositiveDemons : irtkDemonsMode
deriving DecidableEq

/-- The registration parameter set of `irtkDemonsRegistration`
(irtkDemonsRegistration.h:96-135): every numeric field, the
additive/compositive mode flag and the level count.  `double` fields are
modelled over `ℚ`, the `short` padding values and `int` counts over `Int`,
and the interpolation-mode enumeration by its integer code. -/
structure DemonsParams where
  Mode : irtkDemonsMode
  TargetBlurring : ℚ
  TargetResolution : ℚ
  TargetPadding : Int
  SourceBlurring : ℚ
  SourceResolution : ℚ
  SourcePadding : Int
  NumberOfLevels : Int
  NumberOfIterations : Int
  StepSize : ℚ
  Epsilon : ℚ
  ReductionFactor : ℚ
  Smoothing : ℚ
  InterpolationMode : Int
deriving DecidableEq

/-- A parsed parameter-file line at the granularity the spec fixes for the
format: a key and the decoded value (numeric, integral, or the mode
flag). -/
inductive ParamValue where
  | num : ℚ → ParamValue
  | int : Int → ParamValue
  | mode : irtkDemonsMode → ParamValue
deriving DecidableEq

/-- The keys of the parameter file, one per field of the parameter set.
The concrete key strings are written by the missing
`irtkDemonsRegistration.cc`, so the key alphabet is modelled as an
enumeration; the file format pairs each key with one value. -/
inductive ParamKey where
  | KMode : ParamKey
  | KTargetBlurring : ParamKey
  | KTargetResolution : ParamKey
  | KTargetPadding : ParamKey
  | KSourceBlurring : ParamKey
  | KSourceResolution : ParamKey
  | KSourcePadding : ParamKey
  | KNumberOfLevels : ParamKey
  | KNumberOfIterations : ParamKey
  | KStepSize : ParamKey
  | KEpsilon : ParamKey
  | KReductionFactor : ParamKey
  | KSmoothing : ParamKey
  | KInterpolationMode : ParamKey
deriving DecidableEq

/-- Modelled from the spec: `irtkDemonsRegistration::Write`
(irtkDemonsRegistration.h:194; its body is in
`irtkDemonsRegistration.cc`, which is not among the provided sources).
Spec §6: Write emits one `Key = Value` line per field of the
`RegistrationParameters` set plus the mode flag and the level count. -/
def WriteParams (p : DemonsParams) : List (ParamKey × ParamValue) :=
  [(ParamKey.KMode, ParamValue.mode p.Mode),
   (ParamKey.KTargetBlurring, ParamValue.num p.TargetBlurring),
   (ParamKey.KTargetResolution, ParamValue.num p.TargetResolution),
   (ParamKey.KTargetPadding, ParamValue.int p.TargetPadding),
   (ParamKey.KSourceBlurring, ParamValue.num p.SourceBlurring),
   (ParamKey.KSourceResolution, ParamValue.num p.SourceResolution),
   (ParamKey.KSourcePadding, ParamValue.int p.SourcePadding),
   (ParamKey.KNumberOfLevels, ParamValue.int p.NumberOfLevels),
   (ParamKey.KNumberOfIterations, ParamValue.int p.NumberOfIterations),
   (ParamKey.KStepSize, ParamValue.num p.StepSize),
   (ParamKey.KEpsilon, ParamValue.num p.Epsilon),
   (ParamKey.KReductionFactor, ParamValue.num p.ReductionFactor),
   (ParamKey.KSmoothing, ParamValue.num p.Smoothing),
   (ParamKey.KInterpolationMode, ParamValue.int p.InterpolationMode)]

/-- One step of the read loop: a recognised `Key = Value` line updates the
corresponding parameter field, anything else is ignored. -/
def applyParamLine (p : DemonsParams) (kv : ParamKey × ParamValue) : DemonsParams :=
  match kv with
  | (ParamKey.KMode, ParamValue.mode v) => { p with Mode := v }
  | (ParamKey.KTargetBlurring, ParamValue.num v) => { p with TargetBlurring := v }
  | (ParamKey.KTargetResolution, ParamValue.num v) => { p with TargetResolution := v }
  | (ParamKey.KTargetPadding, ParamValue.int v) => { p with TargetPadding := v }
  | (ParamKey.KSourceBlurring, ParamValue.num v) => { p with SourceBlurring := v }
  | (ParamKey.KSourceResolution, ParamValue.num v) => { p with SourceResolution := v }
  | (ParamKey.KSourcePadding, ParamValue.int v) => { p with SourcePadding := v }
  | (ParamKey.KNumberOfLevels, ParamValue.int v) => { p with NumberOfLevels := v }
  | (ParamKey.KNumberOfIterations, ParamValue.int v) => { p with NumberOfIterations := v }
  | (ParamKey.KStepSize, ParamValue.num v) => { p with StepSize := v }
  | (ParamKey.KEpsilon, ParamValue.num v) => { p with Epsilon := v }
  | (ParamKey.KReductionFactor, ParamValue.num v) => { p with ReductionFactor := v }
  | (ParamKey.KSmoothing, ParamValue.num v) => { p with Smoothing := v }
  | (ParamKey.KInterpolationMode, ParamValue.int v) => { p with InterpolationMode := v }
  | _ => p

/-- Modelled from the spec: `irtkDemonsRegistration::Read`
(irtkDemonsRegistration.h:191; body in the absent
`irtkDemonsRegistration.cc`).  Spec §6: Read consumes the parameter file
line by line (via `read_line`) and sets each recognised field. -/
def ReadParams (lines : List (ParamKey × ParamValue)) (p : DemonsParams) : DemonsParams :=
  lines.foldl applyParamLine p

/-- C6: writing a `RegistrationParameters` set with `Write` and reading the
same file back with `Read` restores every numeric field, the
additive/compositive mode flag, and the level count, whatever the
parameter state before the read. -/
theorem readParams_writeParams (p init : DemonsParams) :
    ReadParams (WriteParams p) init = p := by
  cases p
  rfl

/-- Modelled from the spec: the additive-mode force computation of
`irtkDemonsRegistration::Force` (irtkDemonsRegistration.h:157; body in the
absent `irtkDemonsRegistration.cc`).  Spec §4.2: force at a voxel is
`diff · ∇ / (|∇|² + diff²)` with `diff = target(v) − source(v + d(v))` and
`∇` the target gradient; spec §7: a numerically degenerate denominator is
clamped by an epsilon floor and the force treated as zero. -/
def additiveDemonsForce (eps diff gx gy gz : ℚ) : ℚ × ℚ × ℚ :=
  if gx ^ 2 + gy ^ 2 + gz ^ 2 + diff ^ 2 < eps then (0, 0, 0)
  else (diff * gx / (gx ^ 2 + gy ^ 2 + gz ^ 2 + diff ^ 2),
        diff * gy / (gx ^ 2 + gy ^ 2 + gz ^ 2 + diff ^ 2),
        diff * gz / (gx ^ 2 + gy ^ 2 + gz ^ 2 + diff ^ 2))

/-- C7: in additive Demons mode the force at a voxel whose target intensity
equals the sampled source intensity (difference exactly 0) is exactly the
zero vector, whatever the gradient and whatever the epsilon floor. -/
theorem additiveForce_zero_of_zero_diff (eps gx gy gz : ℚ) :
    additiveDemonsForce eps 0 gx gy gz = (0, 0, 0) := by
  unfold additiveDemonsForce
  split_ifs with h
  · rfl
  · norm_num

end IRTK
